import Mathlib

/-!
Verification of the organ-transport stochastic routing program
(source: organ_transport_routing_time_uncertainity_stochastic_code.py).

The program compares three policies for routing an organ to a single
hospital under travel-time uncertainty: the recourse problem RP (posed
as a binary program over selection variables x and payoff indicators y
and handed to an external exact solver), the expected-value policy EEV
(select on probability-weighted average travel time, value under the
true scenarios), and the wait-and-see bound WS (best feasible hospital
per scenario).  From these it derives EVPI = WS - RP and VSS = RP - EEV
and appends one result row per viability threshold.

Survival values, probabilities and travel times are embedded as exact
rationals; iteration order of the Python lists and dicts is preserved by
using Lean lists in the same order.
-/

/-- Sum of a rational-valued function over a list: the shape of every
generator expression `sum(f(a) for a in l)` in the source. -/
def qsum {α : Type} (l : List α) (f : α → ℚ) : ℚ :=
  (l.map f).sum

@[simp] lemma qsum_nil {α : Type} (f : α → ℚ) : qsum ([] : List α) f = 0 := rfl

@[simp] lemma qsum_cons {α : Type} (a : α) (l : List α) (f : α → ℚ) :
    qsum (a :: l) f = f a + qsum l f := rfl

lemma qsum_congr {α : Type} {l : List α} {f g : α → ℚ}
    (h : ∀ a ∈ l, f a = g a) : qsum l f = qsum l g := by
  induction l with
  | nil => rfl
  | cons a l ih =>
      simp only [qsum_cons]
      rw [h a (List.mem_cons_self a l), ih (fun b hb => h b (List.mem_cons_of_mem a hb))]

@[simp] lemma qsum_zero {α : Type} (l : List α) : qsum l (fun _ => (0:ℚ)) = 0 := by
  induction l with
  | nil => rfl
  | cons a l ih => simp [qsum_cons, ih]

lemma qsum_nonneg {α : Type} {l : List α} {f : α → ℚ}
    (h : ∀ a ∈ l, 0 ≤ f a) : 0 ≤ qsum l f := by
  induction l with
  | nil => simp
  | cons a l ih =>
      simp only [qsum_cons]
      have h1 := h a (List.mem_cons_self a l)
      have h2 := ih (fun b hb => h b (List.mem_cons_of_mem a hb))
      linarith

lemma qsum_le_qsum {α : Type} {l : List α} {f g : α → ℚ}
    (h : ∀ a ∈ l, f a ≤ g a) : qsum l f ≤ qsum l g := by
  induction l with
  | nil => simp
  | cons a l ih =>
      simp only [qsum_cons]
      have h1 := h a (List.mem_cons_self a l)
      have h2 := ih (fun b hb => h b (List.mem_cons_of_mem a hb))
      linarith

lemma qsum_mul_left {α : Type} (l : List α) (c : ℚ) (f : α → ℚ) :
    qsum l (fun a => c * f a) = c * qsum l f := by
  induction l with
  | nil => simp
  | cons a l ih => simp [qsum_cons, ih, mul_add]

lemma mem_le_qsum {α : Type} {l : List α} {f : α → ℚ} {a : α}
    (ha : a ∈ l) (h : ∀ b ∈ l, 0 ≤ f b) : f a ≤ qsum l f := by
  induction l with
  | nil => cases ha
  | cons b l ih =>
      simp only [qsum_cons]
      rcases List.mem_cons.mp ha with rfl | ha2
      · have := qsum_nonneg (fun c hc => h c (List.mem_cons_of_mem _ hc))
        linarith
      · have h1 := h b (List.mem_cons_self b l)
        have h2 := ih ha2 (fun c hc => h c (List.mem_cons_of_mem _ hc))
        linarith

lemma qsum_single {α : Type} [DecidableEq α] {l : List α} {a : α} (c : ℚ)
    (hnd : l.Nodup) (ha : a ∈ l) :
    qsum l (fun b => if b = a then c else 0) = c := by
  induction l with
  | nil => cases ha
  | cons b l ih =>
      rcases List.nodup_cons.mp hnd with ⟨hb, hnd2⟩
      simp only [qsum_cons]
      rcases List.mem_cons.mp ha with rfl | ha2
      · have hz : qsum l (fun x => if x = a then c else 0) = 0 := by
          have hp : ∀ x ∈ l, (if x = a then c else 0) = (fun _ => (0:ℚ)) x := by
            intro x hx
            have hxa : x ≠ a := fun e => hb (e ▸ hx)
            simp [hxa]
          rw [qsum_congr hp, qsum_zero]
        simp [hz]
      · have hba : b ≠ a := fun e => hb (e ▸ ha2)
        rw [if_neg hba, ih hnd2 ha2]
        ring

lemma qsum_ind_zero {α : Type} {l : List α} {x : α → Bool}
    (hsum : qsum l (fun h => if x h = true then (1:ℚ) else 0) = 0) :
    ∀ d ∈ l, x d = false := by
  induction l with
  | nil => intro d hd; cases hd
  | cons c tl ih =>
      have hrest : 0 ≤ qsum tl (fun h => if x h = true then (1:ℚ) else 0) :=
        qsum_nonneg (fun b _ => by by_cases hxb : x b = true <;> simp [hxb])
      have hhead : (0:ℚ) ≤ (if x c = true then (1:ℚ) else 0) := by
        by_cases hxc : x c = true <;> simp [hxc]
      simp only [qsum_cons] at hsum
      intro d hd
      rcases List.mem_cons.mp hd with rfl | hd2
      · by_cases hxd : x d = true
        · exfalso
          rw [if_pos hxd] at hsum
          linarith
        · revert hxd; cases x d <;> simp
      · exact ih (by linarith) d hd2

lemma qsum_ind_eq_one_unique {α : Type} {l : List α} {x : α → Bool}
    (hnd : l.Nodup) (hsum : qsum l (fun h => if x h = true then (1:ℚ) else 0) = 1)
    {a b : α} (ha : a ∈ l) (hb : b ∈ l) (hxa : x a = true) (hxb : x b = true) :
    a = b := by
  induction l with
  | nil => cases ha
  | cons c tl ih =>
      rcases List.nodup_cons.mp hnd with ⟨_, hnd2⟩
      simp only [qsum_cons] at hsum
      by_cases hxc : x c = true
      · rw [if_pos hxc] at hsum
        have hz : qsum tl (fun h => if x h = true then (1:ℚ) else 0) = 0 := by linarith
        have hfalse := qsum_ind_zero hz
        have haa : a = c := by
          rcases List.mem_cons.mp ha with rfl | ha2
          · rfl
          · exact absurd hxa (by simp [hfalse a ha2])
        have hbb : b = c := by
          rcases List.mem_cons.mp hb with rfl | hb2
          · rfl
          · exact absurd hxb (by simp [hfalse b hb2])
        rw [haa, hbb]
      · rw [if_neg hxc] at hsum
        have ha2 : a ∈ tl := by
          rcases List.mem_cons.mp ha with rfl | ha2
          · exact absurd hxa hxc
          · exact ha2
        have hb2 : b ∈ tl := by
          rcases List.mem_cons.mp hb with rfl | hb2
          · exact absurd hxb hxc
          · exact hb2
        exact ih hnd2 (by linarith) ha2 hb2

/-- First maximiser of a rational-valued key over a list.  This is the
semantics of the Python builtin max with a key function (first item with
the maximal key wins), which the source applies to the insertion-ordered
dict of average-time-feasible hospitals. -/
def argmaxFirst {α : Type} (f : α → ℚ) : List α → Option α
  | [] => none
  | a :: l =>
      match argmaxFirst f l with
      | none => some a
      | some b => if f a < f b then some b else some a

lemma argmaxFirst_eq_none {α : Type} (f : α → ℚ) (l : List α) :
    argmaxFirst f l = none ↔ l = [] := by
  cases l with
  | nil => simp [argmaxFirst]
  | cons a l =>
      simp only [argmaxFirst]
      rcases h : argmaxFirst f l with _ | b
      · simp
      · by_cases hlt : f a < f b <;> simp [hlt]

lemma argmaxFirst_mem {α : Type} (f : α → ℚ) :
    ∀ (l : List α) (a : α), argmaxFirst f l = some a → a ∈ l := by
  intro l
  induction l with
  | nil => intro a h; exact absurd h (by simp [argmaxFirst])
  | cons c tl ih =>
      intro a h
      simp only [argmaxFirst] at h
      rcases h2 : argmaxFirst f tl with _ | b
      · rw [h2] at h
        simp only [Option.some.injEq] at h
        exact h ▸ List.mem_cons_self c tl
      · rw [h2] at h
        dsimp only at h
        by_cases hlt : f c < f b
        · rw [if_pos hlt] at h
          simp only [Option.some.injEq] at h
          exact List.mem_cons_of_mem c (ih a (h ▸ h2))
        · rw [if_neg hlt] at h
          simp only [Option.some.injEq] at h
          exact h ▸ List.mem_cons_self c tl

lemma argmaxFirst_le {α : Type} (f : α → ℚ) :
    ∀ (l : List α) (a : α), argmaxFirst f l = some a → ∀ b ∈ l, f b ≤ f a := by
  intro l
  induction l with
  | nil => intro a h; exact absurd h (by simp [argmaxFirst])
  | cons c tl ih =>
      intro a h b hb
      simp only [argmaxFirst] at h
      rcases h2 : argmaxFirst f tl with _ | m
      · rw [h2] at h
        simp only [Option.some.injEq] at h
        have htl : tl = [] := (argmaxFirst_eq_none f tl).mp h2
        subst htl
        rcases List.mem_cons.mp hb with rfl | hb2
        · exact h ▸ le_refl _
        · cases hb2
      · rw [h2] at h
        dsimp only at h
        by_cases hlt : f c < f m
        · rw [if_pos hlt] at h
          simp only [Option.some.injEq] at h
          subst h
          rcases List.mem_cons.mp hb with rfl | hb2
          · exact le_of_lt hlt
          · exact ih _ h2 b hb2
        · rw [if_neg hlt] at h
          simp only [Option.some.injEq] at h
          subst h
          rcases List.mem_cons.mp hb with rfl | hb2
          · exact le_refl _
          · exact le_trans (ih m h2 b hb2) (not_lt.mp hlt)

lemma argmaxFirst_of_mem {α : Type} (f : α → ℚ) {l : List α} {a : α}
    (ha : a ∈ l) : ∃ m, argmaxFirst f l = some m := by
  rcases h : argmaxFirst f l with _ | m
  · exact absurd ((argmaxFirst_eq_none f l).mp h ▸ ha) (List.not_mem_nil a)
  · exact ⟨m, rfl⟩

/-- Static input data of the program: hospitals with survival values,
scenarios with probabilities, and a total travel-time table
(source lines 6-24; the viability threshold is passed separately,
as the loop variable of the sweep on line 32). -/
structure SModel (H S : Type) where
  hospitals : List H
  scenarios : List S
  survival : H → ℚ
  prob : S → ℚ
  travel : S → H → ℚ

/-- The single feasibility predicate of the program: a travel time is
viable iff it is at most the threshold (the comparison written
travel_times[s][h] <= viability, or avg_times[h] <= viability, at source
lines 52, 69, 72 and 79).  Total and side-effect free. -/
def feasible (time threshold : ℚ) : Bool := decide (time ≤ threshold)

/-- Probability mass of the scenarios in which hospital h is reachable
within the threshold. -/
def feasProb {H S : Type} (M : SModel H S) (t : ℚ) (h : H) : ℚ :=
  qsum M.scenarios (fun s => if M.travel s h ≤ t then M.prob s else 0)

/-- Closed-form expected value of committing to hospital h:
survival value times feasible-probability mass. -/
def expVal {H S : Type} (M : SModel H S) (t : ℚ) (h : H) : ℚ :=
  M.survival h * feasProb M t h

/-- The hospital the recourse problem selects: the (first) maximiser of
the expected value over the hospital list. -/
def RPselect {H S : Type} (M : SModel H S) (t : ℚ) : Option H :=
  argmaxFirst (expVal M t) M.hospitals

/-- Closed-form value of the recourse problem: the expected value of
the argmax hospital (0 when the hospital list is empty).  On
well-formed inputs this equals the objective value the external solver
reports for the binary program of source lines 34-59 (proved in
mip_equals_closed_form); on ill-formed inputs with negative survival
values the solver optimum can differ, so claims about the recorded
output use IsMipOptimalValue instead. -/
def RPvalue {H S : Type} (M : SModel H S) (t : ℚ) : ℚ :=
  match RPselect M t with
  | none => 0
  | some h => expVal M t h

/-- Probability-weighted average travel time of a hospital
(source line 68). -/
def avgTime {H S : Type} (M : SModel H S) (h : H) : ℚ :=
  qsum M.scenarios (fun s => M.prob s * M.travel s h)

/-- Hospitals whose average travel time meets the threshold: the keys of
the dict feasible_eev (source line 69), in hospital-list order. -/
def eevCandidates {H S : Type} (M : SModel H S) (t : ℚ) : List H :=
  M.hospitals.filter (fun h => decide (avgTime M h ≤ t))

/-- The hospital the expected-value policy commits to: Python max over
the candidate dict items keyed by survival value (source line 71),
whose tie-break is first-in-iteration-order. -/
def eevSelect {H S : Type} (M : SModel H S) (t : ℚ) : Option H :=
  argmaxFirst M.survival (eevCandidates M t)

/-- EEV: the true expected value of the average-time decision, summing
prob[s]*survival[best] over exactly the scenarios in which the chosen
hospital is really reachable (source lines 70-74); 0 when no hospital is
feasible on average. -/
def solveEEV {H S : Type} (M : SModel H S) (t : ℚ) : ℚ :=
  match eevSelect M t with
  | none => 0
  | some b => qsum M.scenarios (fun s => if M.travel s b ≤ t then M.prob s * M.survival b else 0)

/-- Hospitals reachable within the threshold in scenario s: the keys of
the dict feasibles (source line 79). -/
def wsFeas {H S : Type} (M : SModel H S) (t : ℚ) (s : S) : List H :=
  M.hospitals.filter (fun h => decide (M.travel s h ≤ t))

/-- Best attainable survival value in scenario s:
max(feasibles.values()) if feasibles else 0 (source line 80). -/
def bestS {H S : Type} (M : SModel H S) (t : ℚ) (s : S) : ℚ :=
  match argmaxFirst M.survival (wsFeas M t s) with
  | none => 0
  | some m => M.survival m

/-- WS: the wait-and-see value, the probability-weighted sum of the
per-scenario best values (source lines 77-80).  A scalar; no committed
hospital is produced. -/
def solveWS {H S : Type} (M : SModel H S) (t : ℚ) : ℚ :=
  qsum M.scenarios (fun s => M.prob s * bestS M t s)

/-- EVPI = WS - RP (source line 83). -/
def EVPI {H S : Type} (M : SModel H S) (t : ℚ) : ℚ := solveWS M t - RPvalue M t

/-- VSS = RP - EEV (source line 84). -/
def VSS {H S : Type} (M : SModel H S) (t : ℚ) : ℚ := RPvalue M t - solveEEV M t

/-- Objective of the binary program: sum of prob[s]*survival[h]*y[h,s]
over the hospital/scenario grid (obj_rule, source lines 41-43). -/
def mipObj {H S : Type} (M : SModel H S) (y : H → S → Bool) : ℚ :=
  qsum M.hospitals (fun h =>
    qsum M.scenarios (fun s => M.prob s * M.survival h * (if y h s = true then 1 else 0)))

/-- Constraints of the binary program (source lines 45-56): exactly one
hospital selected, each payoff indicator dominated by its selection
variable, and payoff forced to zero whenever the travel time exceeds the
threshold. -/
def mipFeasible {H S : Type} (M : SModel H S) (t : ℚ) (x : H → Bool) (y : H → S → Bool) : Prop :=
  qsum M.hospitals (fun h => if x h = true then (1:ℚ) else 0) = 1 ∧
  (∀ h ∈ M.hospitals, ∀ s ∈ M.scenarios, y h s = true → x h = true) ∧
  (∀ h ∈ M.hospitals, ∀ s ∈ M.scenarios, ¬ M.travel s h ≤ t → y h s = false)

/-- A hospital the solver may report as selected: the x-component of
some optimal feasible assignment of the binary program (the solver
returns an arbitrary optimum; the scan on source lines 61-65 then reads
the hospital with x[h] = 1 out of it). -/
def IsOptimalSelection {H S : Type} (M : SModel H S) (t : ℚ) (a : H) : Prop :=
  a ∈ M.hospitals ∧
  ∃ x y, mipFeasible M t x y ∧ x a = true ∧
    ∀ x2 y2, mipFeasible M t x2 y2 → mipObj M y2 ≤ mipObj M y

/-- Selection vector committing to the single hospital a. -/
def selOne {H : Type} [DecidableEq H] (a : H) : H → Bool := fun h => decide (h = a)

/-- The payoff indicators induced by committing to hospital a: pay in
exactly the scenarios where a is reachable. -/
def yCanon {H S : Type} [DecidableEq H] (M : SModel H S) (t : ℚ) (a : H) : H → S → Bool :=
  fun h s => selOne a h && decide (M.travel s h ≤ t)

/-- One row of the output table (source line 88):
(viability, RP, EEV, WS, EVPI, VSS, selected hospital). -/
structure ResultRow (H : Type) where
  viability : ℚ
  rp : ℚ
  eev : ℚ
  ws : ℚ
  evpi : ℚ
  vss : ℚ
  hospital : Option H

/-- Contract of the external solver call (source lines 58-59): the
scalar RP = value(model.obj) is an objective value that some feasible
assignment of the binary program attains and that no feasible
assignment exceeds. -/
def IsMipOptimalValue {H S : Type} (M : SModel H S) (t v : ℚ) : Prop :=
  (∃ x y, mipFeasible M t x y ∧ mipObj M y = v) ∧
  (∀ x y, mipFeasible M t x y → mipObj M y ≤ v)

/-- The row the body of the sweep loop appends for one threshold
(source lines 82-88), given the solver-reported objective value rp and
the read-back selection: the five scalars are recorded exactly as
computed, EVPI as WS - rp and VSS as rp - EEV, with no inspection of
their sign, no clamping and no error path. -/
def recordedRow {H S : Type} (M : SModel H S) (t rp : ℚ) (sel : Option H) : ResultRow H :=
  ⟨t, rp, solveEEV M t, solveWS M t,
    solveWS M t - rp, rp - solveEEV M t, sel⟩

/-- Well-formed input data: distinct identifiers, non-negative survival
values, non-negative probabilities summing to one, and a total
non-negative travel-time table. -/
def WellFormed {H S : Type} (M : SModel H S) : Prop :=
  M.hospitals.Nodup ∧ M.scenarios.Nodup ∧
  (∀ h ∈ M.hospitals, 0 ≤ M.survival h) ∧
  (∀ s ∈ M.scenarios, 0 ≤ M.prob s) ∧
  qsum M.scenarios M.prob = 1 ∧
  (∀ s ∈ M.scenarios, ∀ h ∈ M.hospitals, 0 ≤ M.travel s h)

instance {H S : Type} [DecidableEq H] [DecidableEq S] (M : SModel H S) :
    Decidable (WellFormed M) :=
  show Decidable (M.hospitals.Nodup ∧ M.scenarios.Nodup ∧
    (∀ h ∈ M.hospitals, 0 ≤ M.survival h) ∧
    (∀ s ∈ M.scenarios, 0 ≤ M.prob s) ∧
    qsum M.scenarios M.prob = 1 ∧
    (∀ s ∈ M.scenarios, ∀ h ∈ M.hospitals, 0 ≤ M.travel s h)) from inferInstance

/-- Spec formulation of the per-scenario wait-and-see best value:
the maximum of the feasible survival values together with 0. -/
def wsSpecBest {H S : Type} (M : SModel H S) (t : ℚ) (s : S) : ℚ :=
  ((wsFeas M t s).map M.survival).foldr max 0

/-- Spec formulation of WS built from wsSpecBest. -/
def wsSpecValue {H S : Type} (M : SModel H S) (t : ℚ) : ℚ :=
  qsum M.scenarios (fun s => M.prob s * wsSpecBest M t s)

/-- Survival values of the ten hospitals (source lines 7-10). -/
def repoSurvival : String → ℚ := fun h =>
  match h with
  | "A" => 15 | "B" => 18 | "C" => 22 | "D" => 19 | "E" => 25
  | "F" => 17 | "G" => 20 | "H" => 16 | "I" => 23 | "J" => 21
  | _ => 0

/-- Scenario probabilities (source line 15). -/
def repoProb : String → ℚ := fun s =>
  match s with
  | "Very Low" => 1/10 | "Low" => 2/10 | "Medium" => 4/10
  | "High" => 2/10 | "Extreme" => 1/10
  | _ => 0

/-- Travel-time table (source lines 18-24). -/
def repoTravel : String → String → ℚ := fun s h =>
  match s with
  | "Very Low" =>
      match h with
      | "A" => 2 | "B" => 3 | "C" => 4 | "D" => 3 | "E" => 5
      | "F" => 2 | "G" => 4 | "H" => 3 | "I" => 5 | "J" => 4
      | _ => 0
  | "Low" =>
      match h with
      | "A" => 3 | "B" => 4 | "C" => 5 | "D" => 4 | "E" => 6
      | "F" => 3 | "G" => 5 | "H" => 4 | "I" => 6 | "J" => 5
      | _ => 0
  | "Medium" =>
      match h with
      | "A" => 4 | "B" => 6 | "C" => 7 | "D" => 5 | "E" => 8
      | "F" => 5 | "G" => 7 | "H" => 6 | "I" => 8 | "J" => 7
      | _ => 0
  | "High" =>
      match h with
      | "A" => 6 | "B" => 8 | "C" => 9 | "D" => 7 | "E" => 10
      | "F" => 6 | "G" => 9 | "H" => 8 | "I" => 10 | "J" => 9
      | _ => 0
  | "Extreme" =>
      match h with
      | "A" => 8 | "B" => 9 | "C" => 10 | "D" => 9 | "E" => 12
      | "F" => 8 | "G" => 11 | "H" => 10 | "I" => 12 | "J" => 11
      | _ => 0
  | _ => 0

/-- The scenario list of the repository (source line 14). -/
def repoScenarios : List String := ["Very Low", "Low", "Medium", "High", "Extreme"]

/-- The full ten-hospital model of the repository (source lines 6-24). -/
def repoModel : SModel String String :=
  ⟨["A", "B", "C", "D", "E", "F", "G", "H", "I", "J"], repoScenarios,
    repoSurvival, repoProb, repoTravel⟩

/-- The six-facility instance A..F of the concrete scenario of the spec:
same survival values, probabilities and travel times, restricted to
hospitals A..F. -/
def model6 : SModel String String :=
  ⟨["A", "B", "C", "D", "E", "F"], repoScenarios, repoSurvival, repoProb, repoTravel⟩

/-- Two-hospital model on which the expected-value policy loses value as
the threshold grows: at threshold 1 only the safe hospital A is a
candidate, while at threshold 7 the higher-valued but rarely reachable
hospital B displaces it. -/
def Mcx : SModel String String :=
  ⟨["A", "B"], ["s1", "s2"],
    (fun h => if h = "A" then 1 else 2),
    (fun s => if s = "s1" then 2/5 else 3/5),
    (fun s h => if h = "A" then 0 else if s = "s1" then 2 else 10)⟩

/-- Ill-formed single-hospital model (negative survival value): the
binary program optimum is 0 (commit to A, pay off nowhere) while
WS = -1/2, so the sweep body computes EVPI = -1/2 and records the
negative value without any check. -/
def Mneg : SModel String String :=
  ⟨["A"], ["s1", "s2"], (fun _ => -1), (fun _ => 1/2),
    (fun s _ => if s = "s1" then 0 else 10)⟩

/-- Two-hospital model in which both hospitals tie on expected value, so
the binary program has two optimal selections. -/
def Mtie : SModel String String :=
  ⟨["A", "B"], ["s1"], (fun _ => 1), (fun _ => 1), (fun _ _ => 0)⟩

lemma feasProb_nonneg {H S : Type} {M : SModel H S} {t : ℚ} {h : H}
    (hprob : ∀ s ∈ M.scenarios, 0 ≤ M.prob s) : 0 ≤ feasProb M t h :=
  qsum_nonneg (fun s hs => by
    by_cases hc : M.travel s h ≤ t <;> simp [hc, hprob s hs])

lemma expVal_nonneg {H S : Type} {M : SModel H S} {t : ℚ} {h : H}
    (hh : h ∈ M.hospitals)
    (hsurv : ∀ h2 ∈ M.hospitals, 0 ≤ M.survival h2)
    (hprob : ∀ s ∈ M.scenarios, 0 ≤ M.prob s) : 0 ≤ expVal M t h :=
  mul_nonneg (hsurv h hh) (feasProb_nonneg hprob)

lemma expVal_le_RPvalue {H S : Type} {M : SModel H S} {t : ℚ} {h : H}
    (hh : h ∈ M.hospitals) : expVal M t h ≤ RPvalue M t := by
  obtain ⟨m, hm⟩ := argmaxFirst_of_mem (expVal M t) hh
  have : RPvalue M t = expVal M t m := by
    simp [RPvalue, RPselect, hm]
  rw [this]
  exact argmaxFirst_le (expVal M t) M.hospitals m hm h hh

lemma RPvalue_nonneg {H S : Type} {M : SModel H S} {t : ℚ}
    (hsurv : ∀ h2 ∈ M.hospitals, 0 ≤ M.survival h2)
    (hprob : ∀ s ∈ M.scenarios, 0 ≤ M.prob s) : 0 ≤ RPvalue M t := by
  rcases hm : RPselect M t with _ | m
  · simp [RPvalue, hm]
  · have hmem : m ∈ M.hospitals := argmaxFirst_mem (expVal M t) M.hospitals m hm
    have : RPvalue M t = expVal M t m := by simp [RPvalue, hm]
    rw [this]
    exact expVal_nonneg hmem hsurv hprob

lemma ite_mul_comm_q {α : Type} (l : List α) (c : α → Prop) [DecidablePred c]
    (p : α → ℚ) (v : ℚ) :
    qsum l (fun s => if c s then p s * v else 0) = v * qsum l (fun s => if c s then p s else 0) := by
  rw [← qsum_mul_left]
  exact qsum_congr (fun s _ => by by_cases hc : c s <;> simp [hc, mul_comm])

lemma expVal_eq_qsum {H S : Type} (M : SModel H S) (t : ℚ) (h : H) :
    expVal M t h = qsum M.scenarios (fun s => if M.travel s h ≤ t then M.prob s * M.survival h else 0) := by
  rw [expVal, feasProb, ite_mul_comm_q, mul_comm]

lemma eev_some_val {H S : Type} {M : SModel H S} {t : ℚ} {b : H}
    (hm : eevSelect M t = some b) : solveEEV M t = expVal M t b := by
  rw [expVal_eq_qsum]
  simp [solveEEV, hm]

lemma eevSelect_mem {H S : Type} {M : SModel H S} {t : ℚ} {b : H}
    (hm : eevSelect M t = some b) : b ∈ M.hospitals ∧ avgTime M b ≤ t := by
  have hmem : b ∈ eevCandidates M t := argmaxFirst_mem _ _ b hm
  have := List.mem_filter.mp hmem
  exact ⟨this.1, of_decide_eq_true this.2⟩

lemma eev_le_rp {H S : Type} {M : SModel H S} {t : ℚ}
    (hsurv : ∀ h2 ∈ M.hospitals, 0 ≤ M.survival h2)
    (hprob : ∀ s ∈ M.scenarios, 0 ≤ M.prob s) : solveEEV M t ≤ RPvalue M t := by
  rcases hm : eevSelect M t with _ | b
  · have : solveEEV M t = 0 := by simp [solveEEV, hm]
    rw [this]
    exact RPvalue_nonneg hsurv hprob
  · rw [eev_some_val hm]
    exact expVal_le_RPvalue (eevSelect_mem hm).1

lemma surv_le_bestS {H S : Type} {M : SModel H S} {t : ℚ} {s : S} {h : H}
    (hh : h ∈ wsFeas M t s) : M.survival h ≤ bestS M t s := by
  obtain ⟨m, hm⟩ := argmaxFirst_of_mem M.survival hh
  have : bestS M t s = M.survival m := by simp [bestS, hm]
  rw [this]
  exact argmaxFirst_le M.survival _ m hm h hh

lemma wsFeas_sub_hospitals {H S : Type} {M : SModel H S} {t : ℚ} {s : S} {h : H}
    (hh : h ∈ wsFeas M t s) : h ∈ M.hospitals :=
  (List.mem_filter.mp hh).1

lemma bestS_nonneg {H S : Type} {M : SModel H S} {t : ℚ} {s : S}
    (hsurv : ∀ h2 ∈ M.hospitals, 0 ≤ M.survival h2) : 0 ≤ bestS M t s := by
  rcases hm : argmaxFirst M.survival (wsFeas M t s) with _ | m
  · simp [bestS, hm]
  · have : bestS M t s = M.survival m := by simp [bestS, hm]
    rw [this]
    exact hsurv m (wsFeas_sub_hospitals (argmaxFirst_mem _ _ m hm))

lemma mem_wsFeas {H S : Type} {M : SModel H S} {t : ℚ} {s : S} {h : H}
    (hh : h ∈ M.hospitals) (hle : M.travel s h ≤ t) : h ∈ wsFeas M t s :=
  List.mem_filter.mpr ⟨hh, decide_eq_true hle⟩

lemma expVal_le_ws {H S : Type} {M : SModel H S} {t : ℚ} {h : H}
    (hh : h ∈ M.hospitals)
    (hsurv : ∀ h2 ∈ M.hospitals, 0 ≤ M.survival h2)
    (hprob : ∀ s ∈ M.scenarios, 0 ≤ M.prob s) : expVal M t h ≤ solveWS M t := by
  rw [expVal_eq_qsum]
  apply qsum_le_qsum
  intro s hs
  by_cases hc : M.travel s h ≤ t
  · rw [if_pos hc]
    exact mul_le_mul_of_nonneg_left (surv_le_bestS (mem_wsFeas hh hc)) (hprob s hs)
  · rw [if_neg hc]
    exact mul_nonneg (hprob s hs) (bestS_nonneg hsurv)

lemma ws_nonneg {H S : Type} {M : SModel H S} {t : ℚ}
    (hsurv : ∀ h2 ∈ M.hospitals, 0 ≤ M.survival h2)
    (hprob : ∀ s ∈ M.scenarios, 0 ≤ M.prob s) : 0 ≤ solveWS M t :=
  qsum_nonneg (fun s hs => mul_nonneg (hprob s hs) (bestS_nonneg hsurv))

lemma rp_le_ws {H S : Type} {M : SModel H S} {t : ℚ}
    (hsurv : ∀ h2 ∈ M.hospitals, 0 ≤ M.survival h2)
    (hprob : ∀ s ∈ M.scenarios, 0 ≤ M.prob s) : RPvalue M t ≤ solveWS M t := by
  rcases hm : RPselect M t with _ | m
  · have : RPvalue M t = 0 := by simp [RPvalue, hm]
    rw [this]
    exact ws_nonneg hsurv hprob
  · have : RPvalue M t = expVal M t m := by simp [RPvalue, hm]
    rw [this]
    exact expVal_le_ws (argmaxFirst_mem _ _ m hm) hsurv hprob

lemma feasProb_mono {H S : Type} {M : SModel H S} {t1 t2 : ℚ} {h : H}
    (hprob : ∀ s ∈ M.scenarios, 0 ≤ M.prob s) (h12 : t1 ≤ t2) :
    feasProb M t1 h ≤ feasProb M t2 h := by
  apply qsum_le_qsum
  intro s hs
  by_cases hc : M.travel s h ≤ t1
  · rw [if_pos hc, if_pos (le_trans hc h12)]
  · rw [if_neg hc]
    by_cases hc2 : M.travel s h ≤ t2 <;> simp [hc2, hprob s hs]

lemma expVal_mono {H S : Type} {M : SModel H S} {t1 t2 : ℚ} {h : H}
    (hh : h ∈ M.hospitals)
    (hsurv : ∀ h2 ∈ M.hospitals, 0 ≤ M.survival h2)
    (hprob : ∀ s ∈ M.scenarios, 0 ≤ M.prob s) (h12 : t1 ≤ t2) :
    expVal M t1 h ≤ expVal M t2 h :=
  mul_le_mul_of_nonneg_left (feasProb_mono hprob h12) (hsurv h hh)

lemma rp_mono {H S : Type} {M : SModel H S} {t1 t2 : ℚ}
    (hsurv : ∀ h2 ∈ M.hospitals, 0 ≤ M.survival h2)
    (hprob : ∀ s ∈ M.scenarios, 0 ≤ M.prob s) (h12 : t1 ≤ t2) :
    RPvalue M t1 ≤ RPvalue M t2 := by
  rcases hm : RPselect M t1 with _ | m
  · have : RPvalue M t1 = 0 := by simp [RPvalue, hm]
    rw [this]
    exact RPvalue_nonneg hsurv hprob
  · have hmem : m ∈ M.hospitals := argmaxFirst_mem _ _ m hm
    have : RPvalue M t1 = expVal M t1 m := by simp [RPvalue, hm]
    rw [this]
    exact le_trans (expVal_mono hmem hsurv hprob h12) (expVal_le_RPvalue hmem)

lemma wsFeas_mono {H S : Type} {M : SModel H S} {t1 t2 : ℚ} {s : S} {h : H}
    (h12 : t1 ≤ t2) (hh : h ∈ wsFeas M t1 s) : h ∈ wsFeas M t2 s := by
  rcases List.mem_filter.mp hh with ⟨hmem, hle⟩
  exact mem_wsFeas hmem (le_trans (of_decide_eq_true hle) h12)

lemma bestS_mono {H S : Type} {M : SModel H S} {t1 t2 : ℚ} {s : S}
    (hsurv : ∀ h2 ∈ M.hospitals, 0 ≤ M.survival h2) (h12 : t1 ≤ t2) :
    bestS M t1 s ≤ bestS M t2 s := by
  rcases hm : argmaxFirst M.survival (wsFeas M t1 s) with _ | m
  · have : bestS M t1 s = 0 := by simp [bestS, hm]
    rw [this]
    exact bestS_nonneg hsurv
  · have : bestS M t1 s = M.survival m := by simp [bestS, hm]
    rw [this]
    exact surv_le_bestS (wsFeas_mono h12 (argmaxFirst_mem _ _ m hm))

lemma ws_mono {H S : Type} {M : SModel H S} {t1 t2 : ℚ}
    (hsurv : ∀ h2 ∈ M.hospitals, 0 ≤ M.survival h2)
    (hprob : ∀ s ∈ M.scenarios, 0 ≤ M.prob s) (h12 : t1 ≤ t2) :
    solveWS M t1 ≤ solveWS M t2 :=
  qsum_le_qsum (fun s hs =>
    mul_le_mul_of_nonneg_left (bestS_mono hsurv h12) (hprob s hs))

lemma maxfold_of_argmax {H : Type} (surv : H → ℚ) :
    ∀ (l : List H), (∀ h ∈ l, 0 ≤ surv h) →
      (match argmaxFirst surv l with
       | none => (0:ℚ)
       | some m => surv m) = (l.map surv).foldr max 0 := by
  intro l
  induction l with
  | nil => intro _; rfl
  | cons c tl ih =>
      intro hpos
      have hc : 0 ≤ surv c := hpos c (List.mem_cons_self c tl)
      simp only [List.map_cons, List.foldr_cons, argmaxFirst]
      rcases h2 : argmaxFirst surv tl with _ | m
      · have htl : tl = [] := (argmaxFirst_eq_none surv tl).mp h2
        subst htl
        simp [max_eq_left hc]
      · have hrec := ih (fun h hh => hpos h (List.mem_cons_of_mem c hh))
        rw [h2] at hrec
        dsimp only at hrec ⊢
        rw [← hrec]
        by_cases hlt : surv c < surv m
        · rw [if_pos hlt, max_eq_right (le_of_lt hlt)]
        · rw [if_neg hlt, max_eq_left (not_lt.mp hlt)]

lemma bestS_eq_wsSpecBest {H S : Type} {M : SModel H S} {t : ℚ} {s : S}
    (hsurv : ∀ h2 ∈ M.hospitals, 0 ≤ M.survival h2) :
    bestS M t s = wsSpecBest M t s := by
  rw [bestS, wsSpecBest]
  exact maxfold_of_argmax M.survival (wsFeas M t s)
    (fun h hh => hsurv h (wsFeas_sub_hospitals hh))

lemma link_false {H S : Type} {M : SModel H S} {t : ℚ} {x : H → Bool} {y : H → S → Bool}
    (hfeas : mipFeasible M t x y) {h : H} (hh : h ∈ M.hospitals) (hx : x h = false) :
    ∀ s ∈ M.scenarios, y h s = false := by
  intro s hs
  rcases hy : y h s with _ | _
  · rfl
  · exact absurd (hfeas.2.1 h hh s hs hy) (by simp [hx])

lemma mip_inner_le {H S : Type} {M : SModel H S} {t : ℚ} {x : H → Bool} {y : H → S → Bool}
    (hfeas : mipFeasible M t x y) {h : H} (hh : h ∈ M.hospitals)
    (hsurv : ∀ h2 ∈ M.hospitals, 0 ≤ M.survival h2)
    (hprob : ∀ s ∈ M.scenarios, 0 ≤ M.prob s) :
    qsum M.scenarios (fun s => M.prob s * M.survival h * (if y h s = true then 1 else 0)) ≤
      (if x h = true then expVal M t h else 0) := by
  rcases hx : x h with _ | _
  · have hz : ∀ s ∈ M.scenarios,
        (M.prob s * M.survival h * (if y h s = true then 1 else 0)) = (fun _ => (0:ℚ)) s := by
      intro s hs
      rw [link_false hfeas hh hx s hs]
      simp
    rw [qsum_congr hz, qsum_zero]
    simp
  · rw [if_pos rfl, expVal_eq_qsum]
    apply qsum_le_qsum
    intro s hs
    rcases hy : y h s with _ | _
    · simp only [if_neg (by simp : ¬ (false = true)), mul_zero]
      by_cases hc : M.travel s h ≤ t
      · rw [if_pos hc]
        exact mul_nonneg (hprob s hs) (hsurv h hh)
      · rw [if_neg hc]
    · have hc : M.travel s h ≤ t := by
        by_contra hcon
        exact absurd (hfeas.2.2 h hh s hs hcon) (by simp [hy])
      rw [if_pos rfl, if_pos hc, mul_one]

lemma mip_obj_le_rp {H S : Type} {M : SModel H S} {t : ℚ} {x : H → Bool} {y : H → S → Bool}
    (_hnd : M.hospitals.Nodup)
    (hsurv : ∀ h2 ∈ M.hospitals, 0 ≤ M.survival h2)
    (hprob : ∀ s ∈ M.scenarios, 0 ≤ M.prob s)
    (hfeas : mipFeasible M t x y) : mipObj M y ≤ RPvalue M t := by
  have step1 : mipObj M y ≤ qsum M.hospitals (fun h => if x h = true then expVal M t h else 0) :=
    qsum_le_qsum (fun h hh => mip_inner_le hfeas hh hsurv hprob)
  have step2 : qsum M.hospitals (fun h => if x h = true then expVal M t h else 0) ≤
      qsum M.hospitals (fun h => if x h = true then RPvalue M t else 0) := by
    apply qsum_le_qsum
    intro h hh
    rcases hx : x h with _ | _
    · simp
    · simpa using expVal_le_RPvalue hh
  have step3 : qsum M.hospitals (fun h => if x h = true then RPvalue M t else 0) = RPvalue M t := by
    have hp : ∀ h ∈ M.hospitals,
        (if x h = true then RPvalue M t else 0) =
          RPvalue M t * (if x h = true then (1:ℚ) else 0) := by
      intro h _
      rcases hx : x h with _ | _ <;> simp
    rw [qsum_congr hp, qsum_mul_left, hfeas.1, mul_one]
  calc mipObj M y ≤ _ := step1
  _ ≤ _ := step2
  _ = RPvalue M t := step3

lemma mipObj_nonpos {H S : Type} {M : SModel H S}
    (hsurv : ∀ h ∈ M.hospitals, M.survival h ≤ 0)
    (hprob : ∀ s ∈ M.scenarios, 0 ≤ M.prob s)
    (y : H → S → Bool) : mipObj M y ≤ 0 := by
  have hinner : ∀ h ∈ M.hospitals,
      qsum M.scenarios (fun s => M.prob s * M.survival h * (if y h s = true then 1 else 0)) ≤
        (fun _ => (0:ℚ)) h := by
    intro h hh
    have hterm : ∀ s ∈ M.scenarios,
        M.prob s * M.survival h * (if y h s = true then 1 else 0) ≤ (fun _ => (0:ℚ)) s := by
      intro s hs
      have hps : M.prob s * M.survival h ≤ 0 :=
        mul_nonpos_of_nonneg_of_nonpos (hprob s hs) (hsurv h hh)
      rcases hy : y h s with _ | _ <;> simp [hps]
    calc qsum M.scenarios _ ≤ qsum M.scenarios (fun _ => (0:ℚ)) := qsum_le_qsum hterm
    _ = 0 := qsum_zero _
  calc mipObj M y ≤ qsum M.hospitals (fun _ => (0:ℚ)) := qsum_le_qsum hinner
  _ = 0 := qsum_zero _

lemma selOne_feasible {H S : Type} [DecidableEq H] {M : SModel H S} {t : ℚ} {a : H}
    (hnd : M.hospitals.Nodup) (ha : a ∈ M.hospitals) :
    mipFeasible M t (selOne a) (yCanon M t a) := by
  refine ⟨?_, ?_, ?_⟩
  · have hp : ∀ h ∈ M.hospitals,
        (if selOne a h = true then (1:ℚ) else 0) = (fun h => if h = a then (1:ℚ) else 0) h := by
      intro h _
      by_cases he : h = a <;> simp [selOne, he]
    rw [qsum_congr hp, qsum_single 1 hnd ha]
  · intro h _ s _ hy
    exact (Bool.and_eq_true _ _ |>.mp hy).1
  · intro h _ s _ hc
    simp [yCanon, decide_eq_false hc]

lemma selOne_obj {H S : Type} [DecidableEq H] {M : SModel H S} {t : ℚ} {a : H}
    (hnd : M.hospitals.Nodup) (ha : a ∈ M.hospitals) :
    mipObj M (yCanon M t a) = expVal M t a := by
  have hp : ∀ h ∈ M.hospitals,
      (qsum M.scenarios (fun s => M.prob s * M.survival h * (if yCanon M t a h s = true then 1 else 0))) =
        (if h = a then expVal M t a else 0) := by
    intro h _
    by_cases he : h = a
    · subst he
      rw [if_pos rfl, expVal_eq_qsum]
      apply qsum_congr
      intro s _
      by_cases hc : M.travel s h ≤ t
      · simp [yCanon, selOne, hc]
      · simp [yCanon, selOne, hc]
    · rw [if_neg he]
      have hz : ∀ s ∈ M.scenarios,
          (M.prob s * M.survival h * (if yCanon M t a h s = true then 1 else 0)) = (fun _ => (0:ℚ)) s := by
        intro s _
        simp [yCanon, selOne, he]
      rw [qsum_congr hz, qsum_zero]
  rw [mipObj, qsum_congr hp, qsum_single _ hnd ha]

lemma rpselect_some {H S : Type} {M : SModel H S} {t : ℚ}
    (hne : M.hospitals ≠ []) : ∃ m, RPselect M t = some m ∧ m ∈ M.hospitals ∧ expVal M t m = RPvalue M t := by
  rcases hm : RPselect M t with _ | m
  · exact absurd ((argmaxFirst_eq_none _ _).mp hm) hne
  · exact ⟨m, rfl, argmaxFirst_mem _ _ m hm, by simp [RPvalue, hm]⟩

lemma mip_optimal_attains {H S : Type} [DecidableEq H] {M : SModel H S} {t : ℚ}
    {x : H → Bool} {y : H → S → Bool}
    (hnd : M.hospitals.Nodup)
    (hsurv : ∀ h2 ∈ M.hospitals, 0 ≤ M.survival h2)
    (hprob : ∀ s ∈ M.scenarios, 0 ≤ M.prob s)
    (hfeas : mipFeasible M t x y) (hobj : mipObj M y = RPvalue M t)
    {h : H} (hh : h ∈ M.hospitals) (hx : x h = true) :
    expVal M t h = RPvalue M t := by
  have hub : expVal M t h ≤ RPvalue M t := expVal_le_RPvalue hh
  have hlb : RPvalue M t ≤ expVal M t h := by
    have hinner : mipObj M y ≤ expVal M t h := by
      have hp : ∀ h2 ∈ M.hospitals,
          (qsum M.scenarios (fun s => M.prob s * M.survival h2 * (if y h2 s = true then 1 else 0))) ≤
            (if h2 = h then expVal M t h else 0) := by
        intro h2 hh2
        by_cases he : h2 = h
        · subst he
          rw [if_pos rfl]
          have := mip_inner_le hfeas hh2 hsurv hprob
          rwa [if_pos hx] at this
        · rw [if_neg he]
          have hx2 : x h2 = false := by
            rcases hx2 : x h2 with _ | _
            · rfl
            · exact absurd (qsum_ind_eq_one_unique hnd hfeas.1 hh2 hh hx2 hx) he
          have hz : ∀ s ∈ M.scenarios,
              (M.prob s * M.survival h2 * (if y h2 s = true then 1 else 0)) = (fun _ => (0:ℚ)) s := by
            intro s hs
            rw [link_false hfeas hh2 hx2 s hs]
            simp
          rw [qsum_congr hz, qsum_zero]
      calc mipObj M y ≤ qsum M.hospitals (fun h2 => if h2 = h then expVal M t h else 0) :=
            qsum_le_qsum hp
      _ = expVal M t h := qsum_single _ hnd hh
    rw [← hobj]
    exact hinner
  exact le_antisymm hub hlb

/-- Claim C1: for every well-formed input (non-negative survival values,
probabilities summing to 1, total non-negative travel-time table,
non-negative threshold) the three policy values are ordered
EEV <= RP <= WS; equivalently EVPI = WS - RP >= 0 and
VSS = RP - EEV >= 0. -/
theorem rp_between_eev_ws {H S : Type} (M : SModel H S) (t : ℚ)
    (hw : WellFormed M) (_ht : 0 ≤ t) :
    solveEEV M t ≤ RPvalue M t ∧ RPvalue M t ≤ solveWS M t ∧
    0 ≤ EVPI M t ∧ 0 ≤ VSS M t := by
  obtain ⟨_, _, hsurv, hprob, _, _⟩ := hw
  have h1 := eev_le_rp (M := M) (t := t) hsurv hprob
  have h2 := rp_le_ws (M := M) (t := t) hsurv hprob
  refine ⟨h1, h2, ?_, ?_⟩
  · unfold EVPI
    linarith
  · unfold VSS
    linarith

theorem rp_between_eev_ws_witness :
    WellFormed repoModel ∧ (0:ℚ) ≤ 8 ∧
      (solveEEV repoModel 8 ≤ RPvalue repoModel 8 ∧
       RPvalue repoModel 8 ≤ solveWS repoModel 8 ∧
       0 ≤ EVPI repoModel 8 ∧ 0 ≤ VSS repoModel 8) :=
  ⟨of_decide_eq_true (by with_unfolding_all rfl), by norm_num,
    rp_between_eev_ws repoModel 8 (of_decide_eq_true (by with_unfolding_all rfl)) (by norm_num)⟩

/-- Claim C2, counterexample: EEV is not a non-decreasing function of
the viability threshold.  On the well-formed model Mcx the thresholds
1 <= 7 give EEV values 1 and 4/5: raising the threshold admits the
higher-valued hospital B as the average-time choice, whose true
feasible mass is small, so the valuation drops. -/
theorem eev_not_monotone_cx :
    WellFormed Mcx ∧ (1:ℚ) ≤ 7 ∧ ¬ solveEEV Mcx 1 ≤ solveEEV Mcx 7 :=
  of_decide_eq_true (by with_unfolding_all rfl)

/-- Claim C2, amended: for a fixed well-formed model and thresholds
t1 <= t2, RP_value and WS are non-decreasing in the threshold (the EEV
part of the original claim is false, see the counterexample). -/
theorem rp_ws_monotone {H S : Type} (M : SModel H S) (t1 t2 : ℚ)
    (hw : WellFormed M) (h12 : t1 ≤ t2) :
    RPvalue M t1 ≤ RPvalue M t2 ∧ solveWS M t1 ≤ solveWS M t2 := by
  obtain ⟨_, _, hsurv, hprob, _, _⟩ := hw
  exact ⟨rp_mono hsurv hprob h12, ws_mono hsurv hprob h12⟩

theorem rp_ws_monotone_witness :
    WellFormed repoModel ∧ (6:ℚ) ≤ 12 ∧
      (RPvalue repoModel 6 ≤ RPvalue repoModel 12 ∧
       solveWS repoModel 6 ≤ solveWS repoModel 12) :=
  ⟨of_decide_eq_true (by with_unfolding_all rfl), by norm_num,
    rp_ws_monotone repoModel 6 12 (of_decide_eq_true (by with_unfolding_all rfl)) (by norm_num)⟩

/-- Claim C3: the binary program the source hands to the solver
(select-one variable x, indicator y linked by y <= x and forced to 0
when infeasible, objective the probability-weighted survival of the
indicators) attains, and never exceeds, the closed-form value
max over hospitals of survival[h] * feasible-probability-mass[h]
(with expVal M t h = M.survival h * feasProb M t h); moreover every
optimal selection variable picks a hospital attaining that maximum. -/
theorem mip_equals_closed_form {H S : Type} [DecidableEq H] (M : SModel H S) (t : ℚ)
    (hw : WellFormed M) (hne : M.hospitals ≠ []) :
    (∃ x y, mipFeasible M t x y ∧ mipObj M y = RPvalue M t) ∧
    (∀ x y, mipFeasible M t x y → mipObj M y ≤ RPvalue M t) ∧
    (∀ h ∈ M.hospitals, expVal M t h ≤ RPvalue M t) ∧
    (∃ h ∈ M.hospitals, expVal M t h = RPvalue M t) ∧
    (∀ x y, mipFeasible M t x y → mipObj M y = RPvalue M t →
      ∀ h ∈ M.hospitals, x h = true → expVal M t h = RPvalue M t) := by
  obtain ⟨hnd, _, hsurv, hprob, _, _⟩ := hw
  obtain ⟨m, hm, hmem, hval⟩ := rpselect_some (M := M) (t := t) hne
  refine ⟨⟨selOne m, yCanon M t m, selOne_feasible hnd hmem, by rw [selOne_obj hnd hmem, hval]⟩,
    fun x y hf => mip_obj_le_rp hnd hsurv hprob hf,
    fun h hh => expVal_le_RPvalue hh,
    ⟨m, hmem, hval⟩,
    fun x y hf hobj h hh hx => mip_optimal_attains hnd hsurv hprob hf hobj hh hx⟩

theorem mip_equals_closed_form_witness :
    WellFormed repoModel ∧ repoModel.hospitals ≠ [] ∧
      ((∃ x y, mipFeasible repoModel 8 x y ∧ mipObj repoModel y = RPvalue repoModel 8) ∧
       (∀ x y, mipFeasible repoModel 8 x y → mipObj repoModel y ≤ RPvalue repoModel 8) ∧
       (∀ h ∈ repoModel.hospitals, expVal repoModel 8 h ≤ RPvalue repoModel 8) ∧
       (∃ h ∈ repoModel.hospitals, expVal repoModel 8 h = RPvalue repoModel 8) ∧
       (∀ x y, mipFeasible repoModel 8 x y → mipObj repoModel y = RPvalue repoModel 8 →
         ∀ h ∈ repoModel.hospitals, x h = true → expVal repoModel 8 h = RPvalue repoModel 8)) :=
  ⟨of_decide_eq_true (by with_unfolding_all rfl), by decide,
    mip_equals_closed_form repoModel 8 (of_decide_eq_true (by with_unfolding_all rfl)) (by decide)⟩

/-- Claim C4: feasibility is everywhere the total predicate
time <= threshold (a travel time exactly equal to the threshold counts
as feasible): it characterises the time-limit constraint of the binary
program, the EEV candidate set and valuation, and the per-scenario
wait-and-see candidate set; at the boundary travel s h = t the pair
still contributes its probability mass and its survival value. -/
theorem feasible_boundary_everywhere {H S : Type} (M : SModel H S) (t : ℚ) (h : H) (s : S)
    (hw : WellFormed M) (hh : h ∈ M.hospitals) (hs : s ∈ M.scenarios)
    (heq : M.travel s h = t) :
    feasible t t = true ∧
    (∀ time thr : ℚ, feasible time thr = true ↔ time ≤ thr) ∧
    (∀ x y, mipFeasible M t x y → ∀ h2 ∈ M.hospitals, ∀ s2 ∈ M.scenarios,
        feasible (M.travel s2 h2) t = false → y h2 s2 = false) ∧
    (∀ h2, h2 ∈ eevCandidates M t ↔ h2 ∈ M.hospitals ∧ feasible (avgTime M h2) t = true) ∧
    (∀ b, eevSelect M t = some b →
        solveEEV M t = qsum M.scenarios
          (fun s2 => if feasible (M.travel s2 b) t = true then M.prob s2 * M.survival b else 0)) ∧
    (∀ s2 h2, h2 ∈ wsFeas M t s2 ↔ h2 ∈ M.hospitals ∧ feasible (M.travel s2 h2) t = true) ∧
    h ∈ wsFeas M t s ∧
    M.prob s ≤ feasProb M t h ∧
    M.survival h ≤ bestS M t s := by
  obtain ⟨_, _, hsurv, hprob, _, _⟩ := hw
  have hmemws : h ∈ wsFeas M t s := mem_wsFeas hh heq.le
  refine ⟨decide_eq_true (le_refl t),
    fun time thr => by simp [feasible],
    ?_, ?_, ?_, ?_, hmemws, ?_, surv_le_bestS hmemws⟩
  · intro x y hf h2 hh2 s2 hs2 hfb
    exact hf.2.2 h2 hh2 s2 hs2 (of_decide_eq_false hfb)
  · intro h2
    simp [eevCandidates, List.mem_filter, feasible]
  · intro b hm
    simp only [solveEEV, hm]
    apply qsum_congr
    intro s2 _
    by_cases hc : M.travel s2 b ≤ t <;> simp [feasible, hc]
  · intro s2 h2
    simp [wsFeas, List.mem_filter, feasible]
  · have hterm : ∀ s2 ∈ M.scenarios,
        0 ≤ (if M.travel s2 h ≤ t then M.prob s2 else 0) := by
      intro s2 hs2
      by_cases hc : M.travel s2 h ≤ t <;> simp [hc, hprob s2 hs2]
    have := mem_le_qsum hs hterm
    rwa [if_pos heq.le] at this

theorem feasible_boundary_everywhere_witness :
    (WellFormed repoModel ∧ "A" ∈ repoModel.hospitals ∧ "Extreme" ∈ repoModel.scenarios ∧
      repoModel.travel "Extreme" "A" = 8) ∧
    (feasible 8 8 = true ∧
     (∀ time thr : ℚ, feasible time thr = true ↔ time ≤ thr) ∧
     (∀ x y, mipFeasible repoModel 8 x y → ∀ h2 ∈ repoModel.hospitals, ∀ s2 ∈ repoModel.scenarios,
         feasible (repoModel.travel s2 h2) 8 = false → y h2 s2 = false) ∧
     (∀ h2, h2 ∈ eevCandidates repoModel 8 ↔
         h2 ∈ repoModel.hospitals ∧ feasible (avgTime repoModel h2) 8 = true) ∧
     (∀ b, eevSelect repoModel 8 = some b →
         solveEEV repoModel 8 = qsum repoModel.scenarios
           (fun s2 => if feasible (repoModel.travel s2 b) 8 = true then repoModel.prob s2 * repoModel.survival b else 0)) ∧
     (∀ s2 h2, h2 ∈ wsFeas repoModel 8 s2 ↔
         h2 ∈ repoModel.hospitals ∧ feasible (repoModel.travel s2 h2) 8 = true) ∧
     "A" ∈ wsFeas repoModel 8 "Extreme" ∧
     repoModel.prob "Extreme" ≤ feasProb repoModel 8 "A" ∧
     repoModel.survival "A" ≤ bestS repoModel 8 "Extreme") :=
  ⟨⟨of_decide_eq_true (by with_unfolding_all rfl), by decide, by decide, rfl⟩,
    feasible_boundary_everywhere repoModel 8 "A" "Extreme"
      (of_decide_eq_true (by with_unfolding_all rfl)) (by decide) (by decide) rfl⟩

/-- Claim C5: the EEV policy selects, among hospitals whose
probability-weighted average travel time is within the threshold, one
of maximal survival value (the deterministic first-maximal tie-break of
Python max over the insertion-ordered dict), and its value is
survival[chosen] times the probability mass of the scenarios in which
the true travel time of the chosen hospital is within the threshold; when no
hospital qualifies on average, the selection is none and the value 0. -/
theorem eev_characterization {H S : Type} (M : SModel H S) (t : ℚ) :
    (eevCandidates M t = [] → eevSelect M t = none ∧ solveEEV M t = 0) ∧
    (∀ b, eevSelect M t = some b →
      b ∈ M.hospitals ∧ avgTime M b ≤ t ∧
      (∀ h ∈ M.hospitals, avgTime M h ≤ t → M.survival h ≤ M.survival b) ∧
      solveEEV M t = M.survival b * feasProb M t b) := by
  constructor
  · intro hempty
    have hnone : eevSelect M t = none := by
      rw [eevSelect, hempty]
      rfl
    exact ⟨hnone, by simp [solveEEV, hnone]⟩
  · intro b hm
    obtain ⟨hmem, havg⟩ := eevSelect_mem hm
    refine ⟨hmem, havg, ?_, ?_⟩
    · intro h hh hha
      exact argmaxFirst_le M.survival _ b hm h (List.mem_filter.mpr ⟨hh, decide_eq_true hha⟩)
    · rw [eev_some_val hm, expVal]

theorem eev_characterization_witness :
    eevSelect repoModel 8 = some "C" ∧
      ("C" ∈ repoModel.hospitals ∧ avgTime repoModel "C" ≤ 8 ∧
       (∀ h ∈ repoModel.hospitals, avgTime repoModel h ≤ 8 →
          repoModel.survival h ≤ repoModel.survival "C") ∧
       solveEEV repoModel 8 = repoModel.survival "C" * feasProb repoModel 8 "C") :=
  ⟨of_decide_eq_true (by with_unfolding_all rfl),
    (eev_characterization repoModel 8).2 "C" (of_decide_eq_true (by with_unfolding_all rfl))⟩

/-- Claim C6: the wait-and-see value is the probability-weighted sum of
per-scenario bests, where each best equals the formulation of the spec
max(feasible survival values together with 0); in particular a scenario
with no feasible hospital contributes 0.  WS is a scalar only. -/
theorem ws_spec_equiv {H S : Type} (M : SModel H S) (t : ℚ) (hw : WellFormed M) :
    solveWS M t = wsSpecValue M t ∧
    (∀ s ∈ M.scenarios, wsFeas M t s = [] → bestS M t s = 0) := by
  obtain ⟨_, _, hsurv, _, _, _⟩ := hw
  constructor
  · apply qsum_congr
    intro s _
    rw [bestS_eq_wsSpecBest hsurv]
  · intro s _ hempty
    rw [bestS, hempty]
    rfl

theorem ws_spec_equiv_witness :
    WellFormed repoModel ∧
      (solveWS repoModel 8 = wsSpecValue repoModel 8 ∧
       (∀ s ∈ repoModel.scenarios, wsFeas repoModel 8 s = [] → bestS repoModel 8 s = 0)) :=
  ⟨of_decide_eq_true (by with_unfolding_all rfl),
    ws_spec_equiv repoModel 8 (of_decide_eq_true (by with_unfolding_all rfl))⟩

/-- Claim C7, counterexample: the selection is not pinned down by the
program.  On the well-formed model Mtie hospitals A and B tie on
expected value and both are optimal selections of the binary program,
so the solver may legitimately return either; nothing in the code
breaks the tie by identifier order. -/
theorem rp_tie_not_unique_cx :
    WellFormed Mtie ∧ IsOptimalSelection Mtie 0 "A" ∧ IsOptimalSelection Mtie 0 "B" ∧
      ("A" : String) ≠ "B" := by
  have hnd : Mtie.hospitals.Nodup := by decide
  have hsurv : ∀ h2 ∈ Mtie.hospitals, 0 ≤ Mtie.survival h2 := by decide
  have hprob : ∀ s2 ∈ Mtie.scenarios, 0 ≤ Mtie.prob s2 := by decide
  have hA : ("A" : String) ∈ Mtie.hospitals := by decide
  have hB : ("B" : String) ∈ Mtie.hospitals := by decide
  have hvA : expVal Mtie 0 "A" = RPvalue Mtie 0 := of_decide_eq_true (by with_unfolding_all rfl)
  have hvB : expVal Mtie 0 "B" = RPvalue Mtie 0 := of_decide_eq_true (by with_unfolding_all rfl)
  refine ⟨of_decide_eq_true (by with_unfolding_all rfl), ?_, ?_, by decide⟩
  · refine ⟨hA, selOne "A", yCanon Mtie 0 "A", selOne_feasible hnd hA, by decide, ?_⟩
    intro x2 y2 hf
    rw [selOne_obj hnd hA, hvA]
    exact mip_obj_le_rp hnd hsurv hprob hf
  · refine ⟨hB, selOne "B", yCanon Mtie 0 "B", selOne_feasible hnd hB, by decide, ?_⟩
    intro x2 y2 hf
    rw [selOne_obj hnd hB, hvB]
    exact mip_obj_le_rp hnd hsurv hprob hf

/-- Claim C7, amended: on every well-formed input with at least one
hospital some optimal selection of the binary program exists (a
hospital is always committed, never none), and every hospital the
solver can report attains the closed-form maximal expected value; the
code does not additionally enforce a deterministic identifier-order
tie-break (see the counterexample). -/
theorem rp_selection_exists_optimal {H S : Type} [DecidableEq H] (M : SModel H S) (t : ℚ)
    (hw : WellFormed M) (hne : M.hospitals ≠ []) :
    (∃ a, IsOptimalSelection M t a) ∧
    (∀ a, IsOptimalSelection M t a → expVal M t a = RPvalue M t) := by
  obtain ⟨hnd, _, hsurv, hprob, _, _⟩ := hw
  obtain ⟨m, hm, hmem, hval⟩ := rpselect_some (M := M) (t := t) hne
  constructor
  · refine ⟨m, hmem, selOne m, yCanon M t m, selOne_feasible hnd hmem, ?_, ?_⟩
    · simp [selOne]
    · intro x2 y2 hf
      rw [selOne_obj hnd hmem, hval]
      exact mip_obj_le_rp hnd hsurv hprob hf
  · rintro a ⟨ha, x, y, hfeas, hxa, hopt⟩
    have hobj_le : mipObj M y ≤ RPvalue M t := mip_obj_le_rp hnd hsurv hprob hfeas
    have hobj_ge : RPvalue M t ≤ mipObj M y := by
      have := hopt (selOne m) (yCanon M t m) (selOne_feasible hnd hmem)
      rwa [selOne_obj hnd hmem, hval] at this
    exact mip_optimal_attains hnd hsurv hprob hfeas (le_antisymm hobj_le hobj_ge) ha hxa

theorem rp_selection_exists_optimal_witness :
    WellFormed repoModel ∧ repoModel.hospitals ≠ [] ∧
      ((∃ a, IsOptimalSelection repoModel 8 a) ∧
       (∀ a, IsOptimalSelection repoModel 8 a → expVal repoModel 8 a = RPvalue repoModel 8)) :=
  ⟨of_decide_eq_true (by with_unfolding_all rfl), by decide,
    rp_selection_exists_optimal repoModel 8 (of_decide_eq_true (by with_unfolding_all rfl)) (by decide)⟩

/-- Claim C8, counterexample: a negative computed metric is not
surfaced as an error; the sweep body records it verbatim in the result
row.  On the (ill-formed: negative survival value) model Mneg at
threshold 0, the objective value the solver must report is exactly 0
(an assignment attains it, no feasible assignment exceeds it, and every
optimal value equals it), the wait-and-see value is -1/2, so the
program computes EVPI = -1/2 - 0 < 0 and the appended row carries
exactly the raw differences WS - 0 and 0 - EEV, with no check, no
clamping and no error path. -/
theorem metric_negative_recorded_cx :
    IsMipOptimalValue Mneg 0 0 ∧
    (∀ v, IsMipOptimalValue Mneg 0 v → v = 0) ∧
    (recordedRow Mneg 0 0 (some "A")).evpi < 0 ∧
    (recordedRow Mneg 0 0 (some "A")).evpi = solveWS Mneg 0 - 0 ∧
    (recordedRow Mneg 0 0 (some "A")).vss = 0 - solveEEV Mneg 0 := by
  have hsurv : ∀ h ∈ Mneg.hospitals, Mneg.survival h ≤ 0 :=
    of_decide_eq_true (by with_unfolding_all rfl)
  have hprob : ∀ s ∈ Mneg.scenarios, 0 ≤ Mneg.prob s :=
    of_decide_eq_true (by with_unfolding_all rfl)
  have hfeas0 : mipFeasible Mneg 0 (selOne "A") (fun _ _ => false) := by
    refine ⟨of_decide_eq_true (by with_unfolding_all rfl), ?_, ?_⟩
    · intro h _ s _ hy
      exact absurd hy (by simp)
    · intro h _ s _ _
      rfl
  have hobj0 : mipObj Mneg (fun _ _ => false) = 0 :=
    of_decide_eq_true (by with_unfolding_all rfl)
  have hopt : IsMipOptimalValue Mneg 0 0 :=
    ⟨⟨selOne "A", fun _ _ => false, hfeas0, hobj0⟩,
      fun x y _ => mipObj_nonpos hsurv hprob y⟩
  refine ⟨hopt, ?_, of_decide_eq_true (by with_unfolding_all rfl), rfl, rfl⟩
  rintro v ⟨⟨x, y, _, hobj⟩, hub⟩
  have hle : v ≤ 0 := hobj ▸ mipObj_nonpos hsurv hprob y
  have hge : (0:ℚ) ≤ v := hobj0 ▸ hub (selOne "A") (fun _ _ => false) hfeas0
  exact le_antisymm hle hge

/-- Claim C8, amended: the program performs no sign check at all: the
recorded row always carries the raw differences WS - rp and rp - EEV
for the solver-reported objective value rp; on well-formed inputs every
solver-reportable optimal value makes the recorded EVPI and VSS
non-negative, so the error case the spec prescribes cannot arise there,
while on ill-formed inputs a negative metric is recorded silently. -/
theorem row_metrics_nonneg {H S : Type} [DecidableEq H] (M : SModel H S) (t v : ℚ)
    (hw : WellFormed M) (hv : IsMipOptimalValue M t v) :
    (recordedRow M t v (RPselect M t)).evpi = solveWS M t - v ∧
    (recordedRow M t v (RPselect M t)).vss = v - solveEEV M t ∧
    0 ≤ (recordedRow M t v (RPselect M t)).evpi ∧
    0 ≤ (recordedRow M t v (RPselect M t)).vss := by
  obtain ⟨hnd, _, hsurv, hprob, _, _⟩ := hw
  obtain ⟨⟨x, y, hf, hobj⟩, hub⟩ := hv
  have hne : M.hospitals ≠ [] := by
    intro he
    have h1 := hf.1
    rw [he, qsum_nil] at h1
    exact absurd h1 (by norm_num)
  obtain ⟨m, hm, hmem, hval⟩ := rpselect_some (M := M) (t := t) hne
  have hvle : v ≤ RPvalue M t := hobj ▸ mip_obj_le_rp hnd hsurv hprob hf
  have hvge : RPvalue M t ≤ v := by
    have := hub (selOne m) (yCanon M t m) (selOne_feasible hnd hmem)
    rwa [selOne_obj hnd hmem, hval] at this
  have hv_eq : v = RPvalue M t := le_antisymm hvle hvge
  have h1 := eev_le_rp (M := M) (t := t) hsurv hprob
  have h2 := rp_le_ws (M := M) (t := t) hsurv hprob
  refine ⟨rfl, rfl, ?_, ?_⟩
  · show 0 ≤ solveWS M t - v
    rw [hv_eq]
    linarith
  · show 0 ≤ v - solveEEV M t
    rw [hv_eq]
    linarith

theorem row_metrics_nonneg_witness :
    (WellFormed repoModel ∧ IsMipOptimalValue repoModel 8 (35/2)) ∧
      ((recordedRow repoModel 8 (35/2) (RPselect repoModel 8)).evpi = solveWS repoModel 8 - 35/2 ∧
       (recordedRow repoModel 8 (35/2) (RPselect repoModel 8)).vss = 35/2 - solveEEV repoModel 8 ∧
       0 ≤ (recordedRow repoModel 8 (35/2) (RPselect repoModel 8)).evpi ∧
       0 ≤ (recordedRow repoModel 8 (35/2) (RPselect repoModel 8)).vss) := by
  have hw : WellFormed repoModel := of_decide_eq_true (by with_unfolding_all rfl)
  have hnd : repoModel.hospitals.Nodup := by decide
  have hsurv : ∀ h ∈ repoModel.hospitals, 0 ≤ repoModel.survival h := by decide
  have hprob : ∀ s ∈ repoModel.scenarios, 0 ≤ repoModel.prob s :=
    of_decide_eq_true (by with_unfolding_all rfl)
  have hmem : ("E" : String) ∈ repoModel.hospitals := by decide
  have hE : mipObj repoModel (yCanon repoModel 8 "E") = 35/2 :=
    of_decide_eq_true (by with_unfolding_all rfl)
  have hRP : RPvalue repoModel 8 = 35/2 := of_decide_eq_true (by with_unfolding_all rfl)
  have hopt : IsMipOptimalValue repoModel 8 (35/2) :=
    ⟨⟨selOne "E", yCanon repoModel 8 "E", selOne_feasible hnd hmem, hE⟩,
      fun x y hf => le_of_le_of_eq (mip_obj_le_rp hnd hsurv hprob hf) hRP⟩
  exact ⟨⟨hw, hopt⟩, row_metrics_nonneg repoModel 8 (35/2) hw hopt⟩

/-- Claim C9, counterexample: on the six-facility instance A..F with
threshold 8 the recourse problem does not select facility A and its
value is not 15: facility E has expected value 25 * 7/10 = 35/2 > 15,
so full feasibility of A does not make it optimal. -/
theorem instance6_rp_not_A_cx :
    ¬ (RPselect model6 8 = some "A" ∧ RPvalue model6 8 = 15) :=
  of_decide_eq_true (by with_unfolding_all rfl)

/-- Claim C9, amended: on the six-facility instance A..F with threshold
8 the recourse problem selects facility E with RP value 35/2 = 17.5,
EEV is 77/5 = 15.4 and WS is 23, and the ordering
EEV <= RP <= WS holds as claimed. -/
theorem instance6_values :
    RPselect model6 8 = some "E" ∧ RPvalue model6 8 = 35/2 ∧
    solveEEV model6 8 = 77/5 ∧ solveWS model6 8 = 23 ∧
    solveEEV model6 8 ≤ RPvalue model6 8 ∧ RPvalue model6 8 ≤ solveWS model6 8 :=
  of_decide_eq_true (by with_unfolding_all rfl)

/-- Claim C10: with non-negative survival values and non-negative
probabilities alone (no solver facts, no probability normalisation),
the wait-and-see scalar dominates the EEV value. -/
theorem ws_ge_eev {H S : Type} (M : SModel H S) (t : ℚ)
    (hsurv : ∀ h ∈ M.hospitals, 0 ≤ M.survival h)
    (hprob : ∀ s ∈ M.scenarios, 0 ≤ M.prob s) :
    solveEEV M t ≤ solveWS M t :=
  le_trans (eev_le_rp (M := M) (t := t) hsurv hprob) (rp_le_ws (M := M) (t := t) hsurv hprob)

theorem ws_ge_eev_witness :
    (∀ h ∈ repoModel.hospitals, 0 ≤ repoModel.survival h) ∧
    (∀ s ∈ repoModel.scenarios, 0 ≤ repoModel.prob s) ∧
    solveEEV repoModel 8 ≤ solveWS repoModel 8 :=
  ⟨by decide, of_decide_eq_true (by with_unfolding_all rfl),
    ws_ge_eev repoModel 8 (by decide) (of_decide_eq_true (by with_unfolding_all rfl))⟩
